import Mathlib

/-!
Verification of the codebase-flattening and cleanup scripts.

This file gives a shallow embedding of the two scripts of the repository:
`combine_codebase.js` (filter, directory walk, per-file block building,
line-limited output chunking, CLI entry) and `clean_node_module.js`
(recursive removal of directories named node_modules).  Filesystem state is
modelled as a tree of entries; reading a file is modelled as a function from
paths to `Except String String` (an `error` value standing for a thrown
read error, carrying the error message).  The theorems at the end of the
file settle the specification claims against these definitions.
-/

/-- Model of the JavaScript expression `String(index).padStart(3, "0")`:
pad the string on the left with the character 0 up to length 3. -/
def padStart3 (s : String) : String :=
  if 3 ≤ s.length then s else String.mk (List.replicate (3 - s.length) '0') ++ s

/-- Model of `path.join(dir, name)` for plain entry names: concatenation with
a single separator. -/
def pathJoin (dir name : String) : String := dir ++ "/" ++ name

/-- Model of the JavaScript `s.startsWith(pre)`: the characters of `pre` are
a prefix of the characters of `s`. -/
def jsStartsWith (s pre : String) : Bool := pre.data.isPrefixOf s.data

/-- Model of the JavaScript `s.endsWith(suf)`: the characters of `suf` are a
suffix of the characters of `s`. -/
def jsEndsWith (s suf : String) : Bool := suf.data.isSuffixOf s.data

/-- Model of the JavaScript `s.toLowerCase()`, lowercasing character by
character (the program only compares ASCII extensions). -/
def jsToLower (s : String) : String := String.mk (s.data.map Char.toLower)

/-- Model of `path.relative(rootDir, filePath)` for the paths this program
produces, which are always obtained by repeatedly joining entry names under
`rootDir`: strip the leading `rootDir ++ "/"`. -/
def relativeTo (rootDir filePath : String) : String :=
  if (rootDir ++ "/").data.isPrefixOf filePath.data then
    String.mk (filePath.data.drop (rootDir ++ "/").data.length)
  else filePath

/-- Model of the JavaScript `content.split("\n")`: split the character list
on every newline character.  Splitting the empty string yields `[""]`, and a
trailing newline yields a trailing empty string, as in JavaScript. -/
def splitOnChar (c : Char) : List Char → List (List Char)
  | [] => [[]]
  | x :: xs =>
    match splitOnChar c xs with
    | [] => [[]]
    | l :: ls => if x = c then [] :: l :: ls else (x :: l) :: ls

/-- The lines of a string, in the sense of JavaScript `s.split("\n")`. -/
def splitLines (s : String) : List String :=
  (splitOnChar '\n' s.data).map String.mk

/-- Media file extensions the script skips (`mediaExtensions` in the source). -/
def mediaExtensions : List String :=
  [".png", ".jpg", ".jpeg", ".gif",
   ".mp3", ".mp4", ".mov", ".avi",
   ".mpeg", ".webm", ".webp", ".svg",
   ".ico", ".pdf"]

/-- `isMediaFile` from the source: the lowercased name ends with one of the
media extensions. -/
def isMediaFile (fileName : String) : Bool :=
  mediaExtensions.any (fun ext => jsEndsWith (jsToLower fileName) ext)

/-- `isIgnored` from the source: hidden entries, markdown files, media files
and names on the explicit ignore list are skipped, tested in this order. -/
def isIgnored (name : String) (isDirectory : Bool) (ignoreList : List String) : Bool :=
  if jsStartsWith name "." then true
  else if !isDirectory && jsEndsWith (jsToLower name) ".md" then true
  else if !isDirectory && isMediaFile name then true
  else if name ∈ ignoreList then true
  else false

/-- A filesystem tree: a file with a name and text content, or a directory
with a name and children. -/
inductive FSEntry where
  | file (name content : String)
  | dir (name : String) (children : List FSEntry)

/-- The name of an entry. -/
def FSEntry.name : FSEntry → String
  | .file n _ => n
  | .dir n _ => n

/-- Whether an entry is a directory (`entry.isDirectory()` in the source). -/
def FSEntry.isDir : FSEntry → Bool
  | .file _ _ => false
  | .dir _ _ => true

/-- `gatherFilePaths` from the source: walk the listed entries, skip ignored
ones entirely (pruning ignored directories), recurse into the remaining
directories and collect the full paths of the remaining files. -/
def gatherFilePaths (dir : String) (ignoreList : List String) : List FSEntry → List String
  | [] => []
  | .file name _ :: rest =>
    (if isIgnored name false ignoreList then [] else [pathJoin dir name])
      ++ gatherFilePaths dir ignoreList rest
  | .dir name cs :: rest =>
    (if isIgnored name true ignoreList then []
     else gatherFilePaths (pathJoin dir name) ignoreList cs)
      ++ gatherFilePaths dir ignoreList rest

/-- `buildFileLines` from the source: the serialized block of one file,
consisting of the header line `projectName/relativePath`, one blank line,
the content lines, and one trailing blank line.  A failed read (the `catch`
branch) substitutes a diagnostic string for the content. -/
def buildFileLines (filePath rootDir projectName : String)
    (readResult : Except String String) : List String :=
  let relativePath := relativeTo rootDir filePath
  let headerLine := projectName ++ "/" ++ relativePath
  let content :=
    match readResult with
    | .ok c => c
    | .error msg => "[Error reading file: " ++ msg ++ "]"
  let fileContentLines := splitLines content
  [headerLine, ""] ++ fileContentLines ++ [""]

/-- `getOutputFileName` from the source. -/
def getOutputFileName (projectName : String) (index : Nat) : String :=
  projectName ++ "_combined_" ++ padStart3 (toString index) ++ ".txt"

/-- The mutable state of the chunking loop of `combineCodebaseWithLineLimit`:
the chunks already closed (with their names and lines), the index and name of
the currently open output file, the lines written to it and its line count. -/
structure ChunkState where
  closedChunks : List (String × List String)
  currentFileIndex : Nat
  currentFileName : String
  currentLines : List String
  currentLineCount : Nat

/-- One iteration of the loop of `combineCodebaseWithLineLimit`: if adding
the block of the next file would exceed the limit, close the current output
file and open the next one; then append the block to the current output. -/
def processFileBlock (projectName : String) (maxLines : Nat)
    (st : ChunkState) (block : List String) : ChunkState :=
  if st.currentLineCount + block.length > maxLines then
    { closedChunks := st.closedChunks ++ [(st.currentFileName, st.currentLines)]
      currentFileIndex := st.currentFileIndex + 1
      currentFileName := getOutputFileName projectName (st.currentFileIndex + 1)
      currentLines := block
      currentLineCount := block.length }
  else
    { st with
      currentLines := st.currentLines ++ block
      currentLineCount := st.currentLineCount + block.length }

/-- The chunking loop: starting with output file 1 open and empty, feed every
file block through `processFileBlock`, and finally close the last output
file.  The result lists every written chunk with its name and lines. -/
def chunkBlocks (projectName : String) (maxLines : Nat)
    (blocks : List (List String)) : List (String × List String) :=
  let final := blocks.foldl (processFileBlock projectName maxLines)
    ⟨[], 1, getOutputFileName projectName 1, [], 0⟩
  final.closedChunks ++ [(final.currentFileName, final.currentLines)]

/-- The static ignore list built inside `combineCodebaseWithLineLimit`. -/
def ignoreList : List String :=
  [".git", "node_modules", "public", "scripts", ".env", "yarn.lock",
   "package-lock.json", "assets", "README.md", "CODE_OF_CONDUCT.md",
   "CONTRIBUTING.md", "LICENSE.md", "bun.lockb"]

/-- The file paths the run processes: gathered from the tree and sorted
(`filePaths.sort()` in the source, lexicographic string order). -/
def sortedFilePaths (rootDir : String) (fsRoot : List FSEntry) : List String :=
  (gatherFilePaths rootDir ignoreList fsRoot).mergeSort (fun a b => a ≤ b)

/-- `combineCodebaseWithLineLimit` from the source: gather and sort the
qualifying file paths, build the block of each file, and write the blocks
into numbered chunks of at most `maxLines` lines.  The result is the list of
written artifacts (name and lines). -/
def combineCodebaseWithLineLimit (projectName rootDir : String)
    (fsRoot : List FSEntry) (maxLines : Nat)
    (readFile : String → Except String String) : List (String × List String) :=
  chunkBlocks projectName maxLines
    ((sortedFilePaths rootDir fsRoot).map
      (fun fp => buildFileLines fp rootDir projectName (readFile fp)))

/-- The usage message printed by the CLI entry of `combine_codebase.js`. -/
def usageMessage : String :=
  "Usage: node combine_codebase_split_by_lines.mjs <project_name> [root_directory]"

/-- The observable outcome of one CLI invocation: the exit code, the lines
printed to standard output and to standard error, and the output artifacts
written (name and lines). -/
structure CliOutcome where
  exitCode : Nat
  stdoutLines : List String
  stderrLines : List String
  artifacts : List (String × List String)

/-- Model of the JavaScript default `value || dflt` on an optional string
argument: a missing or empty (falsy) argument yields the default. -/
def jsOrString (v : Option String) (dflt : String) : String :=
  match v with
  | none => dflt
  | some s => if s = "" then dflt else s

/-- Model of `process.argv[4] || 5000`: a missing or empty argument yields
5000; an explicit decimal numeral yields its value.  (JavaScript keeps the
raw string and coerces it numerically at each comparison; the claims only
exercise the omitted case.) -/
def parsedMaxLines (v : Option String) : Nat :=
  match v with
  | none => 5000
  | some s => if s = "" then 5000 else (s.toNat?).getD 5000

/-- The CLI entry of `combine_codebase.js`: with fewer than three `argv`
entries (node, script path, project name) it prints the usage message via
`console.log` (standard output) and exits with code 1 writing nothing;
otherwise it runs `combineCodebaseWithLineLimit` with the defaulted
arguments, logging one completion line per chunk and a final line. -/
def cliMain (argv : List String) (fsRoot : List FSEntry)
    (readFile : String → Except String String) : CliOutcome :=
  if argv.length < 3 then
    { exitCode := 1, stdoutLines := [usageMessage], stderrLines := [], artifacts := [] }
  else
    let projectName := (argv.get? 2).getD ""
    let rootDir := jsOrString (argv.get? 3) "."
    let maxLines := parsedMaxLines (argv.get? 4)
    let artifacts := combineCodebaseWithLineLimit projectName rootDir fsRoot maxLines readFile
    { exitCode := 0
      stdoutLines :=
        artifacts.map (fun a =>
          "Finished writing: " ++ a.1 ++ " (total lines: " ++ toString a.2.length ++ ")")
          ++ ["All done!"]
      stderrLines := []
      artifacts := artifacts }

/-- `removeNodeModules` of `clean_node_module.js`, acting on a directory
listing: a subdirectory named node_modules is deleted with all its contents
(no recursion into it); any other subdirectory is recursed into; files are
left untouched. -/
def removeNodeModulesList : List FSEntry → List FSEntry
  | [] => []
  | .file name content :: rest => .file name content :: removeNodeModulesList rest
  | .dir name cs :: rest =>
    if name = "node_modules" then removeNodeModulesList rest
    else .dir name (removeNodeModulesList cs) :: removeNodeModulesList rest

/-- `removeNodeModules` applied to a root path: listing a non-directory root
throws, which the source catches and turns into a silent no-op; a directory
root has its listing cleaned. -/
def removeNodeModules : FSEntry → FSEntry
  | .file name content => .file name content
  | .dir name cs => .dir name (removeNodeModulesList cs)

/-- Whether a path (a nonempty list of entry names descending from the given
listing) reaches an entry, with `wantDir` selecting whether the final
component must be a directory or a file.  Intermediate components always
traverse directories. -/
def hasEntryPath : List FSEntry → List String → Bool → Bool
  | _, [], _ => false
  | [], _ :: _, _ => false
  | .file m _ :: es, [n], wantDir =>
    (!wantDir && (m == n)) || hasEntryPath es [n] wantDir
  | .file _ _ :: es, n :: r :: rest, wantDir => hasEntryPath es (n :: r :: rest) wantDir
  | .dir m _ :: es, [n], wantDir =>
    (wantDir && (m == n)) || hasEntryPath es [n] wantDir
  | .dir m cs :: es, n :: r :: rest, wantDir =>
    ((m == n) && hasEntryPath cs (r :: rest) wantDir)
      || hasEntryPath es (n :: r :: rest) wantDir

/-- Modelled from the spec: the repository README describes a tree-plus-content
variant of the flattener (run as `flatcode.js`) whose source is not under
`src/`.  Per the spec, each level of the rendered tree keeps the filtered
entries and sorts all directories before all files, each group by name
(locale-aware comparison modelled as lexicographic string order). -/
def sortLevel (entries : List FSEntry) : List FSEntry :=
  (entries.filter (fun e => e.isDir)).mergeSort (fun a b => a.name ≤ b.name)
    ++ (entries.filter (fun e => !e.isDir)).mergeSort (fun a b => a.name ≤ b.name)

/-- Modelled from the spec: the filtered tree underlying the rendered tree of
the unchunked mode — ignored entries are dropped (pruning ignored
directories), every kept level is sorted with `sortLevel`. -/
def filterSortTree (ig : List String) : List FSEntry → List FSEntry
  | [] => []
  | .file n c :: rest =>
    (if isIgnored n false ig then [] else [.file n c]) ++ filterSortTree ig rest
  | .dir n cs :: rest =>
    (if isIgnored n true ig then [] else [.dir n (sortLevel (filterSortTree ig cs))])
      ++ filterSortTree ig rest

/-- Modelled from the spec: render one (already filtered and sorted) level of
the tree, one line per entry, with box-drawing connectors and the running
indentation prefix carried into recursive calls. -/
def renderTreeLines (indent : String) : List FSEntry → List String
  | [] => []
  | [.file n _] => [indent ++ "└── " ++ n]
  | [.dir n cs] => (indent ++ "└── " ++ n) :: renderTreeLines (indent ++ "    ") cs
  | .file n _ :: e :: rest => (indent ++ "├── " ++ n) :: renderTreeLines indent (e :: rest)
  | .dir n cs :: e :: rest =>
    ((indent ++ "├── " ++ n) :: renderTreeLines (indent ++ "│   ") cs)
      ++ renderTreeLines indent (e :: rest)

/-- Modelled from the spec: the unchunked operating mode — one artifact named
`projectName_combined.txt`, holding a `tree projectName` heading, the
rendered tree, and then the serialized blocks of all qualifying files. -/
def combineUnchunked (projectName rootDir : String) (fsRoot : List FSEntry)
    (readFile : String → Except String String) : String × List String :=
  (projectName ++ "_combined.txt",
    ("tree " ++ projectName)
      :: renderTreeLines "" (sortLevel (filterSortTree ignoreList fsRoot))
      ++ ((sortedFilePaths rootDir fsRoot).map
          (fun fp => buildFileLines fp rootDir projectName (readFile fp))).flatten)

/-- Iterated `pathJoin`: the path reached from `dir` through the listed
components. -/
def joinAll (dir : String) (cs : List String) : String := cs.foldl pathJoin dir

/-- Invariant of the chunking loop, relating the running state to the blocks
already consumed: the closed chunks followed by the current chunk partition
the consumed blocks into consecutive groups; the line counter tracks the
current lines; index and chunk names run sequentially from 1; and every
chunk is within the limit or consists of a single oversized block. -/
def ChunkInv (projectName : String) (maxLines : Nat)
    (done : List (List String)) (st : ChunkState) : Prop :=
  (∃ gs : List (List (List String)), ∃ cur : List (List String),
      st.closedChunks.map Prod.snd = gs.map List.flatten ∧
      st.currentLines = cur.flatten ∧
      gs.flatten ++ cur = done) ∧
  st.currentLineCount = st.currentLines.length ∧
  st.currentFileIndex = st.closedChunks.length + 1 ∧
  st.currentFileName = getOutputFileName projectName st.currentFileIndex ∧
  st.closedChunks.map Prod.fst
    = (List.range st.closedChunks.length).map (fun i => getOutputFileName projectName (i + 1)) ∧
  (∀ c ∈ st.closedChunks, (c.2).length ≤ maxLines ∨ ∃ b ∈ done, c.2 = b ∧ maxLines < b.length) ∧
  (st.currentLineCount ≤ maxLines ∨ ∃ b ∈ done, st.currentLines = b ∧ maxLines < b.length)

theorem chunkInv_init (p : String) (N : Nat) :
    ChunkInv p N [] ⟨[], 1, getOutputFileName p 1, [], 0⟩ := by
  refine ⟨⟨[], [], by simp, by simp, by simp⟩, by simp, by simp, by simp, by simp, by simp, ?_⟩
  exact Or.inl (Nat.zero_le N)

theorem chunkInv_step (p : String) (N : Nat) (done : List (List String))
    (st : ChunkState) (b : List String) (h : ChunkInv p N done st) :
    ChunkInv p N (done ++ [b]) (processFileBlock p N st b) := by
  obtain ⟨⟨gs, cur, hclosed, hcur, hdone⟩, hcount, hidx, hname, hnames, hbound, hcurbound⟩ := h
  unfold processFileBlock
  by_cases hc : st.currentLineCount + b.length > N
  · simp only [if_pos hc]
    refine ⟨⟨gs ++ [cur], [b], ?_, by simp, ?_⟩, by simp, by simp [hidx], by simp [hname, hidx],
      ?_, ?_, ?_⟩
    · simp [hclosed, hcur]
    · simp [hdone]
    · simp [List.range_succ, hnames, hname, hidx]
    · intro c hmemc
      rcases List.mem_append.1 hmemc with hold | hnew
      · rcases hbound c hold with hle | ⟨b', hb', hb'eq, hb'len⟩
        · exact Or.inl hle
        · exact Or.inr ⟨b', List.mem_append_left _ hb', hb'eq, hb'len⟩
      · rcases List.mem_singleton.1 hnew with rfl
        rcases hcurbound with hle | ⟨b', hb', hb'eq, hb'len⟩
        · exact Or.inl (by simpa [hcount] using hle)
        · exact Or.inr ⟨b', List.mem_append_left _ hb', hb'eq, hb'len⟩
    · by_cases hN : b.length ≤ N
      · exact Or.inl hN
      · exact Or.inr ⟨b, List.mem_append_right _ (List.mem_singleton.2 rfl), rfl,
          Nat.lt_of_not_le hN⟩
  · simp only [if_neg hc]
    refine ⟨⟨gs, cur ++ [b], by simpa using hclosed, by simp [hcur], by simp [← hdone]⟩,
      by simp [hcount], by simpa using hidx, by simpa using hname, by simpa using hnames,
      ?_, ?_⟩
    · intro c hmemc
      rcases hbound c hmemc with hle | ⟨b', hb', hb'eq, hb'len⟩
      · exact Or.inl hle
      · exact Or.inr ⟨b', List.mem_append_left _ hb', hb'eq, hb'len⟩
    · exact Or.inl (by simpa using Nat.le_of_not_lt hc)

theorem chunkInv_foldl (p : String) (N : Nat) :
    ∀ (blocks done : List (List String)) (st : ChunkState),
      ChunkInv p N done st →
      ChunkInv p N (done ++ blocks) (blocks.foldl (processFileBlock p N) st)
  | [], done, st, h => by simpa using h
  | b :: bs, done, st, h => by
    have h2 := chunkInv_foldl p N bs (done ++ [b]) _ (chunkInv_step p N done st b h)
    simpa using h2

/-- Master characterization of the chunking loop: the chunk bodies are the
concatenations of a consecutive partition of the input blocks (so no block is
ever split); every chunk is within the limit or is exactly one oversized
block; and the chunk names are sequential from index 1. -/
theorem chunkBlocks_spec (p : String) (N : Nat) (blocks : List (List String)) :
    (∃ groups : List (List (List String)),
        groups.flatten = blocks ∧
        (chunkBlocks p N blocks).map Prod.snd = groups.map List.flatten) ∧
    (∀ c ∈ chunkBlocks p N blocks,
        (c.2).length ≤ N ∨ ∃ b ∈ blocks, c.2 = b ∧ N < b.length) ∧
    ((chunkBlocks p N blocks).map Prod.fst
      = (List.range (chunkBlocks p N blocks).length).map
          (fun i => getOutputFileName p (i + 1))) := by
  have hinv := chunkInv_foldl p N blocks [] _ (chunkInv_init p N)
  simp only [List.nil_append] at hinv
  obtain ⟨⟨gs, cur, hclosed, hcur, hdone⟩, hcount, hidx, hname, hnames, hbound, hcurbound⟩ := hinv
  unfold chunkBlocks
  refine ⟨⟨gs ++ [cur], by simp [hdone], by simp [hclosed, hcur]⟩, ?_, ?_⟩
  · intro c hmemc
    rcases List.mem_append.1 hmemc with hold | hnew
    · exact hbound c hold
    · rcases List.mem_singleton.1 hnew with rfl
      rcases hcurbound with hle | hover
      · exact Or.inl (by simpa [hcount] using hle)
      · exact Or.inr hover
  · simp [List.range_succ, hnames, hname, hidx]

theorem isIgnored_eq_false_parts (name : String) (b : Bool) (ig : List String)
    (h : isIgnored name b ig = false) :
    jsStartsWith name "." = false ∧ name ∉ ig := by
  unfold isIgnored at h
  by_cases h1 : jsStartsWith name "."
  · simp [h1] at h
  · refine ⟨by simpa using h1, ?_⟩
    intro hmem
    simp [h1, hmem] at h

theorem gatherFilePaths_components :
    ∀ (dir : String) (ig : List String) (l : List FSEntry),
      ∀ p ∈ gatherFilePaths dir ig l,
        ∃ cs : List String, cs ≠ [] ∧ p = joinAll dir cs ∧
          ∀ c ∈ cs, jsStartsWith c "." = false ∧ c ∉ ig := by
  intro dir ig l
  induction dir, ig, l using gatherFilePaths.induct with
  | case1 dir ig => simp [gatherFilePaths]
  | case2 dir ig name content rest ih =>
    intro p hp
    simp only [gatherFilePaths] at hp
    rcases List.mem_append.1 hp with h1 | h2
    · by_cases hig : isIgnored name false ig
      · simp [hig] at h1
      · simp only [if_neg hig, List.mem_singleton] at h1
        subst h1
        refine ⟨[name], by simp, rfl, ?_⟩
        intro c hc
        rcases List.mem_singleton.1 hc with rfl
        exact isIgnored_eq_false_parts _ _ _ (by simpa using hig)
    · exact ih p h2
  | case3 dir ig name cs rest ih1 ih2 =>
    intro p hp
    simp only [gatherFilePaths] at hp
    rcases List.mem_append.1 hp with h1 | h2
    · by_cases hig : isIgnored name true ig
      · simp [hig] at h1
      · simp only [if_neg hig] at h1
        obtain ⟨cs', hne, hpe, hall⟩ := ih1 p h1
        refine ⟨name :: cs', by simp, by simpa [joinAll] using hpe, ?_⟩
        intro c hc
        rcases List.mem_cons.1 hc with rfl | hc'
        · exact isIgnored_eq_false_parts _ _ _ (by simpa using hig)
        · exact hall c hc'
    · exact ih2 p h2

theorem gatherFilePaths_prune (dir : String) (ig : List String) (e : FSEntry)
    (he : isIgnored e.name e.isDir ig = true) (l1 l2 : List FSEntry) :
    gatherFilePaths dir ig (l1 ++ e :: l2) = gatherFilePaths dir ig (l1 ++ l2) := by
  induction l1 with
  | nil =>
    cases e with
    | file n c =>
      simp only [FSEntry.name, FSEntry.isDir] at he
      simp [gatherFilePaths, he]
    | dir n cs =>
      simp only [FSEntry.name, FSEntry.isDir] at he
      simp [gatherFilePaths, he]
  | cons h t ih =>
    cases h with
    | file n c => simp [gatherFilePaths, ih]
    | dir n cs => simp [gatherFilePaths, ih]

theorem removeNodeModulesList_hasEntryPath :
    ∀ (fs : List FSEntry) (pth : List String) (wantDir : Bool),
      hasEntryPath (removeNodeModulesList fs) pth wantDir = true ↔
        (hasEntryPath fs pth wantDir = true ∧
          "node_modules" ∉ (if wantDir = true then pth else pth.dropLast)) := by
  intro fs
  induction fs using removeNodeModulesList.induct with
  | case1 =>
    intro pth w
    rcases pth with _ | ⟨n, _ | ⟨r, t⟩⟩ <;> simp [hasEntryPath, removeNodeModulesList]
  | case2 name content rest ih =>
    intro pth w
    rcases pth with _ | ⟨n, _ | ⟨r, t⟩⟩
    · simp [hasEntryPath]
    · cases w <;> simp [removeNodeModulesList, hasEntryPath, ih]
    · simpa [removeNodeModulesList, hasEntryPath] using ih (n :: r :: t) w
  | case3 cs rest ih =>
    intro pth w
    rcases pth with _ | ⟨n, _ | ⟨r, t⟩⟩
    · simp [hasEntryPath]
    · by_cases hn : n = "node_modules"
      · subst hn
        cases w <;> simp [removeNodeModulesList, hasEntryPath, ih]
      · cases w <;> simp [removeNodeModulesList, hasEntryPath, ih, Ne.symm hn, hn]
    · by_cases hn : n = "node_modules"
      · subst hn
        cases w <;> simp [removeNodeModulesList, hasEntryPath, ih, List.dropLast]
      · cases w <;>
          simp [removeNodeModulesList, hasEntryPath, ih, Ne.symm hn, hn, List.dropLast]
  | case4 name cs rest hname ih1 ih2 =>
    intro pth w
    rcases pth with _ | ⟨n, _ | ⟨r, t⟩⟩
    · simp [hasEntryPath]
    · by_cases hn : name = n
      · subst hn
        cases w <;> simp [removeNodeModulesList, hasEntryPath, hname, Ne.symm hname, ih2]
      · cases w <;> simp [removeNodeModulesList, hasEntryPath, hname, hn, ih2]
    · by_cases hn : name = n
      · subst hn
        have hnm : name ≠ "node_modules" := hname
        cases w <;>
          simp [removeNodeModulesList, hasEntryPath, hname, ih1, ih2, List.dropLast,
            Ne.symm hnm] <;> tauto
      · cases w <;>
          simp [removeNodeModulesList, hasEntryPath, hname, hn, ih1, ih2, List.dropLast]

theorem flatten_map_flatten {α : Type} (gs : List (List (List α))) :
    (gs.map List.flatten).flatten = gs.flatten.flatten := by
  induction gs with
  | nil => rfl
  | cons g t ih => simp [ih]

theorem splitOnChar_of_not_mem (c : Char) (l : List Char) (h : c ∉ l) :
    splitOnChar c l = [l] := by
  induction l with
  | nil => rfl
  | cons x xs ih =>
    have hx : ¬x = c := fun hh => h (by simp [hh])
    have hxs : c ∉ xs := fun hh => h (List.mem_cons_of_mem _ hh)
    simp [splitOnChar, ih hxs, hx]

theorem splitLines_of_no_newline (s : String) (h : '\n' ∉ s.data) :
    splitLines s = [s] := by
  rcases s with ⟨l⟩
  simp only [splitLines] at *
  rw [splitOnChar_of_not_mem _ _ h]
  rfl

theorem pairwise_mergeSort_key {α β : Type} [LinearOrder β] (key : α → β) (l : List α) :
    List.Pairwise (fun a b => key a ≤ key b)
      (l.mergeSort (fun a b => key a ≤ key b)) := by
  have htrans : ∀ a b c : α, decide (key a ≤ key b) = true → decide (key b ≤ key c) = true →
      decide (key a ≤ key c) = true := by
    intro a b c hab hbc
    simp only [decide_eq_true_eq] at *
    exact le_trans hab hbc
  have htotal : ∀ a b : α, (decide (key a ≤ key b) || decide (key b ≤ key a)) = true := by
    intro a b
    simp only [Bool.or_eq_true, decide_eq_true_eq]
    exact le_total _ _
  have h := List.sorted_mergeSort htrans htotal l
  exact h.imp (fun hab => by simpa using hab)

theorem filterSortTree_names (ig : List String) :
    ∀ fs : List FSEntry,
      (filterSortTree ig fs).map FSEntry.name
        = (fs.filter (fun e => !(isIgnored e.name e.isDir ig))).map FSEntry.name := by
  intro fs
  induction fs with
  | nil => simp [filterSortTree]
  | cons e rest ih =>
    cases e with
    | file n c =>
      by_cases hig : isIgnored n false ig
      · simp [filterSortTree, List.filter, FSEntry.name, FSEntry.isDir, hig, ih]
      · simp [filterSortTree, List.filter, FSEntry.name, FSEntry.isDir, hig, ih]
    | dir n cs =>
      by_cases hig : isIgnored n true ig
      · simp [filterSortTree, List.filter, FSEntry.name, FSEntry.isDir, hig, ih]
      · simp [filterSortTree, List.filter, FSEntry.name, FSEntry.isDir, hig, ih]

/-- C1: the chunker appends a file block to the current chunk unless the
current line count plus the block line count exceeds the budget, in which
case it closes the current chunk and opens a new one before appending; a
block is never split across chunks (the chunk bodies are the concatenations
of a consecutive partition of the blocks), no chunk exceeds the budget
except a chunk holding a single oversized block by itself, and the chunk
names are `projectName_combined_{index}.txt` with 3-digit zero-padded
indices contiguous from 1. -/
theorem claim1_chunking (p : String) (N : Nat) (blocks : List (List String)) :
    (∀ (st : ChunkState) (b : List String), st.currentLineCount + b.length ≤ N →
        processFileBlock p N st b
          = { st with
              currentLines := st.currentLines ++ b
              currentLineCount := st.currentLineCount + b.length }) ∧
    (∀ (st : ChunkState) (b : List String), N < st.currentLineCount + b.length →
        processFileBlock p N st b
          = ⟨st.closedChunks ++ [(st.currentFileName, st.currentLines)],
             st.currentFileIndex + 1, getOutputFileName p (st.currentFileIndex + 1),
             b, b.length⟩) ∧
    (∃ groups : List (List (List String)),
        groups.flatten = blocks ∧
        (chunkBlocks p N blocks).map Prod.snd = groups.map List.flatten) ∧
    (∀ c ∈ chunkBlocks p N blocks,
        (c.2).length ≤ N ∨ ∃ b ∈ blocks, c.2 = b ∧ N < b.length) ∧
    ((chunkBlocks p N blocks).map Prod.fst
      = (List.range (chunkBlocks p N blocks).length).map
          (fun i => p ++ "_combined_" ++ padStart3 (toString (i + 1)) ++ ".txt")) := by
  refine ⟨?_, ?_, (chunkBlocks_spec p N blocks).1, (chunkBlocks_spec p N blocks).2.1,
    (chunkBlocks_spec p N blocks).2.2⟩
  · intro st b h
    unfold processFileBlock
    rw [if_neg (by omega)]
  · intro st b h
    unfold processFileBlock
    rw [if_pos (by omega)]

theorem claim1_witness :
    processFileBlock "proj" 2 ⟨[], 1, getOutputFileName "proj" 1, ["x"], 1⟩ ["a", "b"]
      = ⟨[(getOutputFileName "proj" 1, ["x"])], 2, getOutputFileName "proj" 2,
         ["a", "b"], 2⟩ :=
  (claim1_chunking "proj" 2 [["a"], ["b"]]).2.1
    ⟨[], 1, getOutputFileName "proj" 1, ["x"], 1⟩ ["a", "b"] (by decide)

/-- C2: the filter excludes an entry exactly when one of the four rules
matches: hidden name, markdown file, media-extension file, or exact match
against the ignore set (files and directories alike). -/
theorem claim2_filter (name : String) (isDirectory : Bool) (ig : List String) :
    isIgnored name isDirectory ig = true ↔
      (jsStartsWith name "." = true
        ∨ (isDirectory = false ∧ jsEndsWith (jsToLower name) ".md" = true)
        ∨ (isDirectory = false ∧ ∃ ext ∈ ([".png", ".jpg", ".jpeg", ".gif", ".mp3", ".mp4",
            ".mov", ".avi", ".mpeg", ".webm", ".webp", ".svg", ".ico", ".pdf"] : List String),
            jsEndsWith (jsToLower name) ext = true)
        ∨ name ∈ ig) := by
  unfold isIgnored isMediaFile
  split_ifs with h1 h2 h3 h4 <;>
    simp_all [mediaExtensions, List.any_eq_true]

theorem claim2_witness :
    isIgnored "photo.JPG" false ["yarn.lock"] = true ↔
      (jsStartsWith "photo.JPG" "." = true
        ∨ (false = false ∧ jsEndsWith (jsToLower "photo.JPG") ".md" = true)
        ∨ (false = false ∧ ∃ ext ∈ ([".png", ".jpg", ".jpeg", ".gif", ".mp3", ".mp4",
            ".mov", ".avi", ".mpeg", ".webm", ".webp", ".svg", ".ico", ".pdf"] : List String),
            jsEndsWith (jsToLower "photo.JPG") ext = true)
        ∨ "photo.JPG" ∈ ["yarn.lock"]) :=
  claim2_filter "photo.JPG" false ["yarn.lock"]

/-- C3: an entry excluded by the filter contributes nothing to the gathered
paths — in particular the whole subtree of an ignored directory is pruned —
and every gathered path descends only through components that are neither
hidden (starting with a dot) nor on the ignore list; pruning an ignored
entry likewise leaves the full run output unchanged. -/
theorem claim3_pruning (dir pn : String) (ig : List String) (l1 l2 l : List FSEntry)
    (e : FSEntry) (N : Nat) (readFile : String → Except String String)
    (he : isIgnored e.name e.isDir ig = true) :
    gatherFilePaths dir ig (l1 ++ e :: l2) = gatherFilePaths dir ig (l1 ++ l2) ∧
    (∀ p ∈ gatherFilePaths dir ig l,
        ∃ cs : List String, cs ≠ [] ∧ p = joinAll dir cs ∧
          ∀ c ∈ cs, jsStartsWith c "." = false ∧ c ∉ ig) ∧
    (isIgnored e.name e.isDir ignoreList = true →
      combineCodebaseWithLineLimit pn dir (l1 ++ e :: l2) N readFile
        = combineCodebaseWithLineLimit pn dir (l1 ++ l2) N readFile) := by
  refine ⟨gatherFilePaths_prune dir ig e he l1 l2, gatherFilePaths_components dir ig l, ?_⟩
  intro he2
  unfold combineCodebaseWithLineLimit sortedFilePaths
  rw [gatherFilePaths_prune dir ignoreList e he2 l1 l2]

theorem claim3_witness :
    gatherFilePaths "r" [".git"]
        [FSEntry.dir ".git" [FSEntry.file "secret.js" ""], FSEntry.file "a.js" "x"]
      = gatherFilePaths "r" [".git"] [FSEntry.file "a.js" "x"] ∧
    (∃ cs : List String, cs ≠ [] ∧ "r/a.js" = joinAll "r" cs ∧
        ∀ c ∈ cs, jsStartsWith c "." = false ∧ c ∉ ([".git"] : List String)) := by
  have h := claim3_pruning "r" "demo" [".git"] []
    [FSEntry.file "a.js" "x"] [FSEntry.file "a.js" "x"]
    (FSEntry.dir ".git" [FSEntry.file "secret.js" ""]) 5 (fun _ => Except.ok "x")
    (by decide)
  refine ⟨h.1, h.2.1 "r/a.js" ?_⟩
  rw [show gatherFilePaths "r" [".git"] [FSEntry.file "a.js" "x"] = ["r/a.js"] by
    rw [gatherFilePaths, gatherFilePaths]
    norm_num [(by decide : isIgnored "a.js" false [".git"] = false), pathJoin]
    decide]
  exact List.mem_singleton.2 rfl

/-- C4: the serialized block of a qualifying file is exactly one header line
`projectName/relativePath`, one blank line, the content lines, and one
trailing blank line; and the chunk bodies are concatenations of consecutive
blocks, so blocks appear in this exact framing with nothing between them. -/
theorem claim4_framing (p rootDir : String) (fs : List FSEntry) (N : Nat)
    (readFile : String → Except String String) (fp content : String)
    (hread : readFile fp = Except.ok content) :
    buildFileLines fp rootDir p (readFile fp)
      = [p ++ "/" ++ relativeTo rootDir fp, ""] ++ splitLines content ++ [""] ∧
    (∃ groups : List (List (List String)),
        groups.flatten = (sortedFilePaths rootDir fs).map
            (fun q => buildFileLines q rootDir p (readFile q)) ∧
        (combineCodebaseWithLineLimit p rootDir fs N readFile).map Prod.snd
          = groups.map List.flatten) := by
  constructor
  · rw [hread]
    rfl
  · unfold combineCodebaseWithLineLimit
    exact (chunkBlocks_spec p N _).1

theorem claim4_witness :
    buildFileLines "r/a.js" "r" "demo" (Except.ok "hi")
      = ["demo" ++ "/" ++ relativeTo "r" "r/a.js", ""] ++ splitLines "hi" ++ [""] ∧
    (∃ groups : List (List (List String)),
        groups.flatten = (sortedFilePaths "r" []).map
            (fun q => buildFileLines q "r" "demo" ((fun _ => Except.ok "hi") q)) ∧
        (combineCodebaseWithLineLimit "demo" "r" [] 5 (fun _ => Except.ok "hi")).map Prod.snd
          = groups.map List.flatten) :=
  claim4_framing "demo" "r" [] 5 (fun _ => Except.ok "hi") "r/a.js" "hi" rfl

/-- C5: a failed content read does not abort the run — the block of the
failing file still carries its header line and its body is the single
diagnostic line embedding the error message; and every gathered file,
whatever its read result, still contributes its header to the output. -/
theorem claim5_error_recovery (p rootDir msg fp : String) (fs : List FSEntry) (N : Nat)
    (readFile : String → Except String String) (hmsg : '\n' ∉ msg.data) :
    buildFileLines fp rootDir p (Except.error msg)
      = [p ++ "/" ++ relativeTo rootDir fp, "",
         "[Error reading file: " ++ msg ++ "]", ""] ∧
    (∀ q ∈ sortedFilePaths rootDir fs,
        (p ++ "/" ++ relativeTo rootDir q)
          ∈ ((combineCodebaseWithLineLimit p rootDir fs N readFile).map Prod.snd).flatten) := by
  constructor
  · have hno : '\n' ∉ ("[Error reading file: " ++ msg ++ "]").data := by
      rw [String.data_append, String.data_append]
      intro hmem
      rcases List.mem_append.1 hmem with hmem1 | hmem2
      · rcases List.mem_append.1 hmem1 with hmem1a | hmem1b
        · exact absurd hmem1a (by decide)
        · exact hmsg hmem1b
      · exact absurd hmem2 (by decide)
    simp only [buildFileLines]
    rw [splitLines_of_no_newline _ hno]
    rfl
  · intro q hq
    obtain ⟨groups, hflat, hmap⟩ := (chunkBlocks_spec p N
      ((sortedFilePaths rootDir fs).map
        (fun q => buildFileLines q rootDir p (readFile q)))).1
    unfold combineCodebaseWithLineLimit
    rw [hmap, flatten_map_flatten, hflat]
    refine List.mem_flatten.2
      ⟨buildFileLines q rootDir p (readFile q), List.mem_map_of_mem _ hq, ?_⟩
    simp [buildFileLines]

theorem claim5_witness :
    buildFileLines "r/a.js" "r" "demo" (Except.error "ENOENT")
      = ["demo" ++ "/" ++ relativeTo "r" "r/a.js", "",
         "[Error reading file: " ++ "ENOENT" ++ "]", ""] ∧
    ("demo" ++ "/" ++ relativeTo "r" "r/a.js")
      ∈ ((combineCodebaseWithLineLimit "demo" "r" [FSEntry.file "a.js" "x"] 5
            (fun _ => Except.error "ENOENT")).map Prod.snd).flatten := by
  have h := claim5_error_recovery "demo" "r" "ENOENT" "r/a.js" [FSEntry.file "a.js" "x"] 5
    (fun _ => Except.error "ENOENT") (by decide)
  refine ⟨h.1, h.2 "r/a.js" ?_⟩
  unfold sortedFilePaths
  rw [List.mem_mergeSort]
  rw [show gatherFilePaths "r" ignoreList [FSEntry.file "a.js" "x"] = ["r/a.js"] by
    rw [gatherFilePaths, gatherFilePaths]
    norm_num [(by decide : isIgnored "a.js" false ignoreList = false), pathJoin]
    decide]
  exact List.mem_singleton.2 rfl

/-- C6: the run is deterministic — equal project name, root, filesystem
state, and line limit yield byte-identical artifacts — and the blocks are
enumerated in the deterministic order obtained by gathering all qualifying
paths and sorting them (the processed path list is a sorted permutation of
the gathered paths). -/
theorem claim6_deterministic (p1 p2 rootDir1 rootDir2 : String) (fs1 fs2 : List FSEntry)
    (N1 N2 : Nat) (read1 read2 : String → Except String String)
    (hp : p1 = p2) (hr : rootDir1 = rootDir2) (hfs : fs1 = fs2) (hN : N1 = N2)
    (hread : read1 = read2) :
    combineCodebaseWithLineLimit p1 rootDir1 fs1 N1 read1
      = combineCodebaseWithLineLimit p2 rootDir2 fs2 N2 read2 ∧
    List.Pairwise (fun a b : String => a ≤ b) (sortedFilePaths rootDir1 fs1) ∧
    (sortedFilePaths rootDir1 fs1).Perm (gatherFilePaths rootDir1 ignoreList fs1) ∧
    combineCodebaseWithLineLimit p1 rootDir1 fs1 N1 read1
      = chunkBlocks p1 N1 ((sortedFilePaths rootDir1 fs1).map
          (fun fp => buildFileLines fp rootDir1 p1 (read1 fp))) := by
  subst hp hr hfs hN hread
  refine ⟨rfl, ?_, List.mergeSort_perm _ _, rfl⟩
  exact pairwise_mergeSort_key (fun s : String => s) _

theorem claim6_witness :
    combineCodebaseWithLineLimit "demo" "r" [FSEntry.file "a.js" "x"] 5
        (fun _ => Except.ok "hi")
      = combineCodebaseWithLineLimit "demo" "r" [FSEntry.file "a.js" "x"] 5
          (fun _ => Except.ok "hi") ∧
    List.Pairwise (fun a b : String => a ≤ b)
      (sortedFilePaths "r" [FSEntry.file "a.js" "x"]) ∧
    (sortedFilePaths "r" [FSEntry.file "a.js" "x"]).Perm
      (gatherFilePaths "r" ignoreList [FSEntry.file "a.js" "x"]) ∧
    combineCodebaseWithLineLimit "demo" "r" [FSEntry.file "a.js" "x"] 5
        (fun _ => Except.ok "hi")
      = chunkBlocks "demo" 5 ((sortedFilePaths "r" [FSEntry.file "a.js" "x"]).map
          (fun fp => buildFileLines fp "r" "demo" ((fun _ => Except.ok "hi") fp))) :=
  claim6_deterministic "demo" "demo" "r" "r" [FSEntry.file "a.js" "x"]
    [FSEntry.file "a.js" "x"] 5 5 (fun _ => Except.ok "hi") (fun _ => Except.ok "hi")
    rfl rfl rfl rfl rfl

/-- C7 (modelled from the spec, the tree-plus-content variant is not under
`src/`): the unchunked operating mode writes one artifact named
`projectName_combined.txt` whose content starts with the `tree projectName`
heading followed by the rendered tree; every rendered level keeps exactly
the filtered entries and lists all directories before all files, each group
sorted by name. -/
theorem claim7_unchunked (p rootDir : String) (fs es : List FSEntry)
    (readFile : String → Except String String) :
    (combineUnchunked p rootDir fs readFile).1 = p ++ "_combined.txt" ∧
    (∃ rest : List String,
        (combineUnchunked p rootDir fs readFile).2 = ("tree " ++ p) :: rest) ∧
    (∃ ds fls : List FSEntry, sortLevel es = ds ++ fls ∧
        (∀ e ∈ ds, e.isDir = true) ∧ (∀ e ∈ fls, e.isDir = false) ∧
        List.Pairwise (fun a b : FSEntry => a.name ≤ b.name) ds ∧
        List.Pairwise (fun a b : FSEntry => a.name ≤ b.name) fls ∧
        (sortLevel es).Perm (es.filter (fun e => e.isDir)
          ++ es.filter (fun e => !e.isDir))) ∧
    ((filterSortTree ignoreList fs).map FSEntry.name
        = (fs.filter (fun e => !(isIgnored e.name e.isDir ignoreList))).map
            FSEntry.name) := by
  refine ⟨rfl, ⟨_, rfl⟩, ?_, filterSortTree_names ignoreList fs⟩
  refine ⟨_, _, rfl, ?_, ?_, ?_, ?_, ?_⟩
  · intro e he
    exact (List.mem_filter.1 (List.mem_mergeSort.1 he)).2
  · intro e he
    have h2 := (List.mem_filter.1 (List.mem_mergeSort.1 he)).2
    simpa using h2
  · exact pairwise_mergeSort_key (fun e : FSEntry => e.name) _
  · exact pairwise_mergeSort_key (fun e : FSEntry => e.name) _
  · exact (List.mergeSort_perm _ _).append (List.mergeSort_perm _ _)

theorem claim7_witness :
    (combineUnchunked "demo" "r" [FSEntry.file "a.js" "x"]
        (fun _ => Except.ok "x")).1 = "demo" ++ "_combined.txt" ∧
    (∃ rest : List String,
        (combineUnchunked "demo" "r" [FSEntry.file "a.js" "x"]
            (fun _ => Except.ok "x")).2 = ("tree " ++ "demo") :: rest) ∧
    (∃ ds fls : List FSEntry,
        sortLevel [FSEntry.file "b" "", FSEntry.dir "a" []] = ds ++ fls ∧
        (∀ e ∈ ds, e.isDir = true) ∧ (∀ e ∈ fls, e.isDir = false) ∧
        List.Pairwise (fun a b : FSEntry => a.name ≤ b.name) ds ∧
        List.Pairwise (fun a b : FSEntry => a.name ≤ b.name) fls ∧
        (sortLevel [FSEntry.file "b" "", FSEntry.dir "a" []]).Perm
          ([FSEntry.file "b" "", FSEntry.dir "a" []].filter (fun e => e.isDir)
            ++ [FSEntry.file "b" "", FSEntry.dir "a" []].filter (fun e => !e.isDir))) ∧
    ((filterSortTree ignoreList [FSEntry.file "a.js" "x"]).map FSEntry.name
        = ([FSEntry.file "a.js" "x"].filter
            (fun e => !(isIgnored e.name e.isDir ignoreList))).map FSEntry.name) :=
  claim7_unchunked "demo" "r" [FSEntry.file "a.js" "x"]
    [FSEntry.file "b" "", FSEntry.dir "a" []] (fun _ => Except.ok "x")

/-- C8: the cleanup tool removes every directory named node_modules together
with all its contents without recursing into it, recurses into every other
directory, and deletes nothing else: a path survives the cleanup exactly
when it existed before and traverses no directory named node_modules; a
non-directory root is a silent no-op; and on the spec example both
node_modules directories disappear while `A/B` itself remains. -/
theorem claim8_clean (fs : List FSEntry) (pth : List String) (wantDir : Bool)
    (n c : String) :
    removeNodeModules (FSEntry.file n c) = FSEntry.file n c ∧
    (hasEntryPath (removeNodeModulesList fs) pth wantDir = true ↔
      (hasEntryPath fs pth wantDir = true ∧
        "node_modules" ∉ (if wantDir = true then pth else pth.dropLast))) ∧
    removeNodeModulesList
        [FSEntry.dir "A" [FSEntry.dir "node_modules" [FSEntry.file "x" ""],
           FSEntry.dir "B" [FSEntry.dir "node_modules" [FSEntry.file "y" ""]]]]
      = [FSEntry.dir "A" [FSEntry.dir "B" []]] := by
  refine ⟨rfl, removeNodeModulesList_hasEntryPath fs pth wantDir, ?_⟩
  simp [removeNodeModulesList]

theorem claim8_witness :
    removeNodeModules (FSEntry.file "f" "c") = FSEntry.file "f" "c" ∧
    (hasEntryPath (removeNodeModulesList [FSEntry.dir "node_modules" []])
        ["node_modules"] true = true ↔
      (hasEntryPath [FSEntry.dir "node_modules" []] ["node_modules"] true = true ∧
        "node_modules" ∉ (if true = true then ["node_modules"]
          else (["node_modules"] : List String).dropLast))) ∧
    removeNodeModulesList
        [FSEntry.dir "A" [FSEntry.dir "node_modules" [FSEntry.file "x" ""],
           FSEntry.dir "B" [FSEntry.dir "node_modules" [FSEntry.file "y" ""]]]]
      = [FSEntry.dir "A" [FSEntry.dir "B" []]] :=
  claim8_clean [FSEntry.dir "node_modules" []] ["node_modules"] true "f" "c"

/-- C9 counterexample: invoked without the required project-name argument,
the CLI does exit with code 1 after printing the usage message and writes no
artifact — but the message is printed with `console.log`, so it appears on
standard output while standard error stays empty, contradicting the part of
the claim that says error messages go to standard error. -/
theorem claim9_counterexample :
    (cliMain ["node", "combine_codebase.js"] []
        (fun _ => Except.error "ENOENT")).exitCode = 1 ∧
    (cliMain ["node", "combine_codebase.js"] []
        (fun _ => Except.error "ENOENT")).stdoutLines = [usageMessage] ∧
    (cliMain ["node", "combine_codebase.js"] []
        (fun _ => Except.error "ENOENT")).stderrLines = [] ∧
    (cliMain ["node", "combine_codebase.js"] []
        (fun _ => Except.error "ENOENT")).artifacts = [] :=
  ⟨rfl, rfl, rfl, rfl⟩

/-- C9 (amended): with fewer than three `argv` entries the CLI exits with
code 1 immediately after printing the usage message to standard output
(nothing goes to standard error) and produces no artifact; when the optional
arguments are omitted, the root directory defaults to `.` (the current
working directory) and the line limit defaults to 5000. -/
theorem claim9_cli (argv : List String) (fsRoot : List FSEntry)
    (readFile : String → Except String String) (a b pn : String)
    (h : argv.length < 3) :
    cliMain argv fsRoot readFile = ⟨1, [usageMessage], [], []⟩ ∧
    (cliMain [a, b, pn] fsRoot readFile).exitCode = 0 ∧
    (cliMain [a, b, pn] fsRoot readFile).artifacts
      = combineCodebaseWithLineLimit pn "." fsRoot 5000 readFile := by
  refine ⟨?_, rfl, rfl⟩
  unfold cliMain
  rw [if_pos h]

theorem claim9_witness :
    cliMain ["node"] [] (fun _ => Except.error "x") = ⟨1, [usageMessage], [], []⟩ ∧
    (cliMain ["n", "s", "demo"] [] (fun _ => Except.error "x")).exitCode = 0 ∧
    (cliMain ["n", "s", "demo"] [] (fun _ => Except.error "x")).artifacts
      = combineCodebaseWithLineLimit "demo" "." [] 5000 (fun _ => Except.error "x") :=
  claim9_cli ["node"] [] (fun _ => Except.error "x") "n" "s" "demo" (by decide)

/-- C10: the first chunk file, with index 001, is always created; with no
qualifying file it is finalized empty; and when the very first block alone
exceeds the limit, the empty chunk 001 is closed and the oversized block is
written alone into chunk 002, so an oversized block in a chunk by itself can
be preceded by an empty artifact. -/
theorem claim10_first_chunk (p : String) (N : Nat) (blocks : List (List String))
    (b : List String) (hb : N < b.length) :
    (chunkBlocks p N blocks).head?.map Prod.fst = some (getOutputFileName p 1) ∧
    getOutputFileName p 1 = p ++ "_combined_001.txt" ∧
    chunkBlocks p N [] = [(getOutputFileName p 1, [])] ∧
    chunkBlocks p N [b] = [(getOutputFileName p 1, []), (getOutputFileName p 2, b)] := by
  refine ⟨?_, ?_, rfl, ?_⟩
  · have hne : chunkBlocks p N blocks ≠ [] := by
      unfold chunkBlocks
      simp
    obtain ⟨o, os, ho⟩ := List.exists_cons_of_ne_nil hne
    have hnames := (chunkBlocks_spec p N blocks).2.2
    rw [ho] at hnames ⊢
    have h2 := congrArg List.head? hnames
    simp [List.range_succ_eq_map] at h2
    simp [h2]
  · rw [getOutputFileName, String.append_assoc, String.append_assoc,
      (by decide : "_combined_" ++ (padStart3 (toString 1) ++ ".txt")
        = "_combined_001.txt")]
  · unfold chunkBlocks
    simp [processFileBlock, hb]

theorem claim10_witness :
    (chunkBlocks "proj" 1 []).head?.map Prod.fst = some (getOutputFileName "proj" 1) ∧
    getOutputFileName "proj" 1 = "proj" ++ "_combined_001.txt" ∧
    chunkBlocks "proj" 1 [] = [(getOutputFileName "proj" 1, [])] ∧
    chunkBlocks "proj" 1 [["a", "b"]]
      = [(getOutputFileName "proj" 1, []), (getOutputFileName "proj" 2, ["a", "b"])] :=
  claim10_first_chunk "proj" 1 [] ["a", "b"] (by decide)
